import Mathlib

/-!
Verification development for the Mini-Notes frontend core
(`src/utils.js`, `src/backup.js`, `src/storage.js`, `app.js`).

Strings are modelled as lists of characters; JS numbers that hold
epoch-millisecond timestamps of canonical notes are modelled as `Nat`
(the app always creates them from the current clock), JS numbers in
loosely-typed remote/import records as `Int`.  The two regular
expressions of `utils.js` are embedded as an explicit scanner that
mirrors the semantics of a global-regex `exec`/`replace` loop:
left-to-right scan, leftmost match, greedy `{2,24}` quantifier with
backtracking against the trailing `\b` word-boundary assertion, and
resumption of the scan at the end of each match.
-/

namespace MiniNotes

/-- Strings, modelled as lists of characters. -/
abbrev Str := List Char

/-- Coerce a Lean string literal to the character-list model. -/
def strToL (s : String) : Str := s.data

/-! ### Character classes of the regexes in `utils.js` -/

/-- JS regex word character (`\w`, used by the `\b` assertion): `[A-Za-z0-9_]`. -/
def isWordChar (c : Char) : Bool :=
  (65 ≤ c.toNat && c.toNat ≤ 90) || (97 ≤ c.toNat && c.toNat ≤ 122) ||
  (48 ≤ c.toNat && c.toNat ≤ 57) || c.toNat == 95

/-- Character allowed inside a `#tag`: `[a-z0-9_-]` under the case-insensitive
flag, i.e. word characters plus the hyphen. -/
def isTagChar (c : Char) : Bool :=
  isWordChar c || c.toNat == 45

/-- JS regex whitespace class `\s` (also the set trimmed by `String.trim`). -/
def isJsSpace (c : Char) : Bool :=
  (9 ≤ c.toNat && c.toNat ≤ 13) || c.toNat == 32 || c.toNat == 160 ||
  c.toNat == 0x1680 || (0x2000 ≤ c.toNat && c.toNat ≤ 0x200a) ||
  c.toNat == 0x2028 || c.toNat == 0x2029 || c.toNat == 0x202f ||
  c.toNat == 0x205f || c.toNat == 0x3000 || c.toNat == 0xfeff

/-- The boundary class of `extractTags`: the character that may precede the
hash, `[\s.,;:!?([{\-]` (whitespace or the listed punctuation). -/
def isExtBoundary (c : Char) : Bool :=
  isJsSpace c || c.toNat == 46 || c.toNat == 44 || c.toNat == 59 ||
  c.toNat == 58 || c.toNat == 33 || c.toNat == 63 || c.toNat == 40 ||
  c.toNat == 91 || c.toNat == 123 || c.toNat == 45

/-- ASCII lower-casing of one character, as `toLowerCase` acts on the
characters that can occur in a matched tag. -/
def lowerChar (c : Char) : Char :=
  if 65 ≤ c.toNat ∧ c.toNat ≤ 90 then Char.ofNat (c.toNat + 32) else c

/-- ASCII lower-casing of a string. -/
def lowerStr (s : Str) : Str := s.map lowerChar

/-- `String.prototype.trim`: strip leading and trailing whitespace. -/
def trimStr (s : Str) : Str :=
  ((s.dropWhile isJsSpace).reverse.dropWhile isJsSpace).reverse

/-! ### The `#tag` token of both regexes: `#([a-z0-9_-]{2,24})\b`

`tagAt rest` is the result of matching `([a-z0-9_-]{2,24})\b` (with the
case-insensitive flag) at the start of `rest`, the characters following a
`#`.  The engine first takes the greedy run of up to 24 tag characters and
then backtracks one character at a time until the `\b` assertion holds and
at least 2 characters remain. -/

/-- Whether the character after the candidate (if any) is a word character;
end of input counts as a non-word position. -/
def nextIsWord : Option Char → Bool
  | some c => isWordChar c
  | none => false

/-- The `\b` assertion between position `j - 1` and position `j` of `rest`. -/
def tagBoundaryOk (rest : Str) (j : Nat) : Bool :=
  match rest.get? (j - 1) with
  | some last => isWordChar last != nextIsWord (rest.get? j)
  | none => false

/-- Largest `j` with `2 ≤ j ≤ j0` at which the `\b` assertion holds
(the greedy quantifier backtracks from above). -/
def findTagLen (rest : Str) : Nat → Option Nat
  | 0 => none
  | 1 => none
  | j + 2 =>
    if tagBoundaryOk rest (j + 2) then some (j + 2) else findTagLen rest (j + 1)

/-- Match `([a-z0-9_-]{2,24})\b` at the start of `rest`; returns the raw
(uncased) captured tag. -/
def tagAt (rest : Str) : Option Str :=
  let run := rest.takeWhile isTagChar
  match findTagLen rest (min 24 run.length) with
  | some j => some (run.take j)
  | none => none

/-! ### The global scan loop shared by `extractTags` and `parseQuery`

Both functions run a global regex `(^|[B])#([a-z0-9_-]{2,24})\b` over the
text: `extractTags` with the whitespace-or-punctuation boundary class and
collecting into a set, `parseQuery` with the whitespace-only boundary
class, collecting into a list and deleting each match from the text while
keeping the captured boundary character.  `scanQAux` performs that loop:
it returns the text with every match replaced by its first capture group
together with the lower-cased tags in match order.  The fuel argument is
a Lean artefact making the recursion structural; each step consumes at
least one character, so fuel equal to the length of the input (as passed
by `scanQ`) never runs out. -/

def scanQAux (bnd : Char → Bool) : Nat → Bool → Str → Str × List Str
  | 0, _, _ => ([], [])
  | _ + 1, _, [] => ([], [])
  | fuel + 1, atStart, c :: cs =>
    if atStart = true ∧ c = '#' then
      -- the `^` alternative, available only at the very start of the text
      match tagAt cs with
      | some t =>
        let r := scanQAux bnd fuel false (cs.drop t.length)
        (r.1, lowerStr t :: r.2)
      | none =>
        let r := scanQAux bnd fuel false cs
        (c :: r.1, r.2)
    else
      match cs with
      | '#' :: rest =>
        if bnd c then
          -- a match starting here consumes the boundary character `c`,
          -- which the capture group writes back into the text
          match tagAt rest with
          | some t =>
            let r := scanQAux bnd fuel false (rest.drop t.length)
            (c :: r.1, lowerStr t :: r.2)
          | none =>
            let r := scanQAux bnd fuel false ('#' :: rest)
            (c :: r.1, r.2)
        else
          let r := scanQAux bnd fuel false ('#' :: rest)
          (c :: r.1, r.2)
      | _ =>
        let r := scanQAux bnd fuel false cs
        (c :: r.1, r.2)

/-- Run the scan loop over a whole text. -/
def scanQ (bnd : Char → Bool) (s : Str) : Str × List Str :=
  scanQAux bnd s.length true s

/-- Insertion into a JS `Set` keeps the first occurrence of each element;
`dedupFirst [] l` is `[...new Set(l)]`. -/
def dedupFirst (seen : List Str) : List Str → List Str
  | [] => []
  | t :: ts =>
    if seen.contains t then dedupFirst seen ts
    else t :: dedupFirst (t :: seen) ts

/-- `extractTags(...parts)` from `utils.js`: join the truthy (non-empty)
fragments with a space, scan with the whitespace-or-punctuation boundary
class, and collect the lower-cased tags into a set. -/
def extractTags (parts : List Str) : List Str :=
  let text := List.intercalate [' '] (parts.filter (fun p => p ≠ []))
  dedupFirst [] (scanQ isExtBoundary text).2

/-- `parseQuery(q)` from `utils.js`: trim, then strip every
whitespace-or-start anchored `#tag` token from the text (keeping the
captured whitespace), collecting the tags in match order. -/
def parseQuery (q : Str) : Str × List Str :=
  let q := trimStr q
  if q = [] then ([], [])
  else
    let r := scanQ isJsSpace q
    (trimStr r.1, r.2)

/-- `String.prototype.includes`: substring test. -/
def strIncludes (hay needle : Str) : Bool :=
  hay.tails.any (fun t => needle.isPrefixOf t)

/-! ### Canonical notes -/

/-- The canonical Note shape of the frontend (`@typedef Note` in `app.js`).
Timestamps are epoch milliseconds; a field that may be `undefined` at the
points the core reads it is modelled as an `Option`. -/
structure Note where
  id : String
  title : Str
  content : Str
  createdAt : Option Nat
  updatedAt : Option Nat
  pinned : Bool
deriving DecidableEq, Repr

/-- `n.updatedAt ?? 0`, the comparison key used by merge and sort. -/
def uval (n : Note) : Nat := n.updatedAt.getD 0

/-- `matchesQuery(n, q)` from `utils.js`: all queried tags must occur in the
note's tag set; a non-empty free-text part must occur case-insensitively in
title or content. -/
def matchesQuery (n : Note) (q : Str) : Bool :=
  let p := parseQuery q
  if p.2.all (fun t => (extractTags [n.title, n.content]).contains t) then
    if p.1 ≠ [] then
      strIncludes (lowerStr n.title) (lowerStr p.1) ||
      strIncludes (lowerStr n.content) (lowerStr p.1)
    else true
  else false

/-! ### List-view ordering (`byPinnedThenUpdated` and a stable sort) -/

/-- The comparator `byPinnedThenUpdated(a, b)` from `utils.js`. -/
def byPinnedThenUpdated (a b : Note) : Int :=
  if a.pinned ≠ b.pinned then (if a.pinned then -1 else 1)
  else (uval b : Int) - (uval a : Int)

/-- The non-positive-comparator relation induced by `byPinnedThenUpdated`,
i.e. "`a` may come no later than `b`". -/
def noteLE (a b : Note) : Bool := decide (byPinnedThenUpdated a b ≤ 0)

/-- `notes.slice().sort(byPinnedThenUpdated)`: JS `Array.prototype.sort` is a
stable sort driven by the comparator, modelled by the (stable) `mergeSort`. -/
def sortNotes (l : List Note) : List Note := l.mergeSort noteLE

/-! ### `mergeNotes` from `backup.js`

A JS `Map` preserves insertion order and `set` on an existing key updates
the entry in place; it is modelled as an association list. -/

abbrev AList := List (String × Note)

/-- `map.set(k, v)`: replace the entry of `k` in place, or append. -/
def mapSet (k : String) (v : Note) : AList → AList
  | [] => [(k, v)]
  | (k1, v1) :: m => if k1 = k then (k1, v) :: m else (k1, v1) :: mapSet k v m

/-- `map.get(k)`. -/
def mapGet (k : String) : AList → Option Note
  | [] => none
  | (k1, v1) :: m => if k1 = k then some v1 else mapGet k m

/-- First loop of `mergeNotes`: `for (const n of existing) map.set(n.id, n)`. -/
def buildMap (l : List Note) (m : AList) : AList :=
  l.foldl (fun m n => mapSet n.id n m) m

/-- One step of the second loop of `mergeNotes`: insert a fresh id, or keep
the version with the larger `updatedAt ?? 0`, ties favouring `incoming`. -/
def mergeStep (m : AList) (mn : Note) : AList :=
  match mapGet mn.id m with
  | none => mapSet mn.id mn m
  | some prev => mapSet mn.id (if uval prev ≤ uval mn then mn else prev) m

/-- Second loop of `mergeNotes`. -/
def mergeFold (l : List Note) (m : AList) : AList :=
  l.foldl mergeStep m

/-- `mergeNotes(existing, incoming)` from `backup.js`. -/
def mergeNotes (existing incoming : List Note) : List Note :=
  (mergeFold incoming (buildMap existing [])).map Prod.snd

/-- Look a note up by id in a plain list (first hit). -/
def findById (l : List Note) (i : String) : Option Note :=
  l.find? (fun n => n.id == i)

/-- The ids of a list of notes. -/
def noteIds (l : List Note) : List String := l.map Note.id

/-! ### Declarative characterisation of the `parseQuery` token anchor

`specTags` lists, position by position, the tags whose `#` sits either at
the very start of the text or immediately after a whitespace character
(`prev` is the character preceding the current position, `none` at the
start).  It is written from the specification's wording and is compared
with the operational scanner in the theorems below. -/

/-- Start-of-text or whitespace immediately before the `#`. -/
def anchorWs : Option Char → Bool
  | none => true
  | some c => isJsSpace c

/-- All tags anchored at start-of-text or after whitespace, in order of
appearance, case-folded, duplicates kept. -/
def specTags (prev : Option Char) : Str → List Str
  | [] => []
  | c :: rest =>
    (if anchorWs prev ∧ c = '#' then
      match tagAt rest with
      | some t => [lowerStr t]
      | none => []
    else []) ++ specTags (some c) rest

/-! ### `loadNotes` from `storage.js`

`JSON.parse` is a host built-in; it is modelled as a parameter returning
`none` where the real parser throws.  `localStorage.getItem` yields
`null` for a missing key, which `JSON.parse` coerces to the string
"null" and parses to the JSON `null` value.  JSON numbers are modelled
as integers (the only numbers the store legitimately holds are epoch
timestamps). -/

/-- A JSON value. -/
inductive Json where
  | jnull
  | jbool (b : Bool)
  | jnum (n : Int)
  | jstr (s : Str)
  | jarr (l : List Json)
  | jobj (fields : List (Str × Json))

/-- JS truthiness of a JSON value (`NaN` cannot be produced by `JSON.parse`). -/
def jsTruthy : Json → Bool
  | .jnull => false
  | .jbool b => b
  | .jnum n => n != 0
  | .jstr s => s ≠ []
  | .jarr _ => true
  | .jobj _ => true

/-- Whether a JSON value is an array, i.e. can be read as a sequence of notes. -/
def Json.isArr : Json → Bool
  | .jarr _ => true
  | _ => false

/-- `loadNotes()` from `storage.js`:
`try { return JSON.parse(localStorage.getItem(KEY)) || []; } catch { return []; }`. -/
def loadNotes (parse : Str → Option Json) (stored : Option Str) : Json :=
  let parsed : Option Json :=
    match stored with
    | none => some Json.jnull   -- JSON.parse(null) parses the string "null"
    | some s => parse s
  match parsed with
  | none => Json.jarr []        -- the parser threw; caught, [] returned
  | some v => if jsTruthy v then v else Json.jarr []

/-- A parse function agreeing with `JSON.parse` on the blob "5"
(`JSON.parse("5")` evaluates to the number 5). -/
def jsonParseFive : Str → Option Json :=
  fun s => if s = strToL "5" then some (Json.jnum 5) else none

/-! ### Import validation (`isValidNote`, `sanitizeNotesArray`,
`parseImportedFile` from `backup.js`)

Candidate notes arrive from `JSON.parse`, so a field holds an arbitrary
JS value; `JVal` records exactly what the type tests of `isValidNote`
can distinguish.  An array element that is not an object (`null` or a
primitive) is modelled as `none`: it fails the validity check either by
falsiness or because reading its fields gives `undefined`. -/

/-- A loosely-typed field value of an imported candidate note. -/
inductive JVal where
  | vstr (s : Str)
  | vnum (n : Int)     -- a finite number
  | vnonfinite         -- NaN or ±Infinity: a number failing Number.isFinite
  | vbool (b : Bool)
  | vnull
  | varr
  | vobj
deriving DecidableEq, Repr

/-- A candidate note object from an import file; absent fields are `none`. -/
structure RawNote where
  id : Option JVal
  title : Option JVal
  content : Option JVal
  pinned : Option JVal
  createdAt : Option JVal
  updatedAt : Option JVal
deriving DecidableEq, Repr

/-- An element of an imported array: an object, or some non-object value. -/
abbrev Cand := Option RawNote

/-- `typeof v === 'string'` on a possibly-absent field. -/
def isStrVal : Option JVal → Bool
  | some (.vstr _) => true
  | _ => false

/-- `typeof v === 'boolean'` on a possibly-absent field. -/
def isBoolVal : Option JVal → Bool
  | some (.vbool _) => true
  | _ => false

/-- `Number.isFinite(v)` on a possibly-absent field. -/
def isFiniteNum : Option JVal → Bool
  | some (.vnum _) => true
  | _ => false

/-- `isValidNote(n)` from `backup.js`: the shallow per-note schema check. -/
def isValidNote : Cand → Bool
  | none => false
  | some n =>
    isStrVal n.id && isStrVal n.title && isStrVal n.content &&
    isBoolVal n.pinned && isFiniteNum n.createdAt && isFiniteNum n.updatedAt

/-- `sanitizeNotesArray(arr)` from `backup.js`; `none` is any non-array value. -/
def sanitizeNotesArray : Option (List Cand) → List Cand
  | none => []
  | some l => l.filter isValidNote

/-- The JSON document shapes `parseImportedFile` distinguishes:
a top-level array, an object (with its `notes` field, `none` when absent
or not an array, and its `version` field), or a primitive/null document
on which `data?.notes` and `data?.version` are `undefined`. -/
inductive ImportData where
  | darr (l : List Cand)
  | dobj (notes : Option (List Cand)) (version : Option Int)
  | dprim
deriving DecidableEq, Repr

/-- The resolved result of `parseImportedFile`: `metaVersion = none`
models `meta: null`, `some v` models `meta: {version: v-or-null}`. -/
structure ImportResult where
  notes : List Cand
  metaVersion : Option (Option Int)
  error : Option String
deriving DecidableEq, Repr

/-- `parseImportedFile(file)` from `backup.js`, after file reading and JSON
parsing; `input = none` models a read or parse failure (the catch path). -/
def parseImportedFile (input : Option ImportData) : ImportResult :=
  match input with
  | none => ⟨[], none, some "Invalid JSON file."⟩
  | some d =>
    let maybeNotes : Option (List Cand) :=
      match d with
      | .darr l => some l
      | .dobj mn _ => mn
      | .dprim => none
    let cleaned := sanitizeNotesArray maybeNotes
    if cleaned = [] then ⟨[], none, some "No valid notes found in file."⟩
    else
      match d with
      | .darr _ => ⟨cleaned, some none, none⟩
      | .dobj _ v => ⟨cleaned, some v, none⟩
      | .dprim => ⟨cleaned, some none, none⟩

/-! ### The sync read-path normalizer (`loadNotesFromApi` in `app.js`)

The per-record normalisation of the API read path.  `Date.parse` and
`Date.now` are host built-ins, passed in as parameters (`dateParse`
returns `none` where `Date.parse` gives `NaN`); `crypto.randomUUID` is
the `uuid` parameter.  Remote timestamps arrive as numbers or strings. -/

/-- A remote timestamp field value. -/
inductive TsVal where
  | tnum (n : Int)
  | tstr (s : Str)
deriving DecidableEq, Repr

/-- The `toMs` helper of `loadNotesFromApi`: `undefined` on falsy input
(absent field, the number 0, the empty string), the seconds-to-millis
heuristic on numbers, `Date.parse` on strings. -/
def toMs (dateParse : Str → Option Int) : Option TsVal → Option Int
  | none => none
  | some (.tnum n) =>
    if n = 0 then none
    else some (if n > 1000000000000 then n else n * 1000)
  | some (.tstr s) => if s = [] then none else dateParse s

/-- A loosely-shaped remote record with every field alias the normalizer
probes; absent (or null) fields are `none`. -/
structure ApiRecord where
  id : Option Str
  noteId : Option Str
  noteID : Option Str
  guid : Option Str
  uuid : Option Str
  _id : Option Str
  key : Option Str
  title : Option Str
  name : Option Str
  content : Option Str
  body : Option Str
  createdAt : Option TsVal
  created_at : Option TsVal
  createdOn : Option TsVal
  created_on : Option TsVal
  updatedAt : Option TsVal
  updated_at : Option TsVal
  modifiedAt : Option TsVal
  modified_at : Option TsVal
  pinned : Option Bool
deriving DecidableEq, Repr

/-- The canonical note produced for one remote record. -/
structure NormNote where
  id : Str
  title : Str
  content : Str
  createdAt : Int
  updatedAt : Int
  pinned : Bool
deriving DecidableEq, Repr

/-- The body of `raw.map((n) => ...)` in `loadNotesFromApi`: alias chains
with `??`, timestamp normalisation through `toMs` defaulting to `now`,
and `pinned` defaulting to false. -/
def loadNormalize (dateParse : Str → Option Int) (now : Int) (uuid : Str)
    (n : ApiRecord) : NormNote :=
  let idv := n.id <|> n.noteId <|> n.noteID <|> n.guid <|> n.uuid <|> n._id <|> n.key
  { id := idv.getD uuid
    title := (n.title <|> n.name).getD []
    content := (n.content <|> n.body).getD []
    createdAt :=
      (toMs dateParse (n.createdAt <|> n.created_at <|> n.createdOn <|> n.created_on)).getD now
    updatedAt :=
      (toMs dateParse (n.updatedAt <|> n.updated_at <|> n.modifiedAt <|> n.modified_at)).getD now
    pinned := n.pinned.getD false }

/-- An `ApiRecord` with every field absent. -/
def emptyApiRecord : ApiRecord :=
  ⟨none, none, none, none, none, none, none, none, none, none,
   none, none, none, none, none, none, none, none, none, none⟩

/-- A remote record whose `updatedAt` is the number 0 (a legal epoch value). -/
def apiRecordZeroUpd : ApiRecord :=
  { emptyApiRecord with updatedAt := some (.tnum 0) }

/-- A `Date.parse` stand-in that parses nothing. -/
def dateParseNone : Str → Option Int := fun _ => none

/-! ### Concrete notes for the ordering example -/

/-- Example note A: unpinned, `updatedAt` 5. -/
def noteA : Note := ⟨"A", [], [], none, some 5, false⟩

/-- Example note B: pinned, `updatedAt` 1. -/
def noteB : Note := ⟨"B", [], [], none, some 1, true⟩

/-- Example note C: unpinned, `updatedAt` 10. -/
def noteC : Note := ⟨"C", [], [], none, some 10, false⟩

/-- A remote record whose `updatedAt` is the number 5 (epoch seconds). -/
def apiRecordUpdFive : ApiRecord :=
  { emptyApiRecord with updatedAt := some (.tnum 5) }

/-- Merge tie-break fixture: the base copy of note "a" at `updatedAt` 100. -/
def tieBase : Note := ⟨"a", strToL "base", [], none, some 100, false⟩

/-- Merge tie-break fixture: the incoming copy of note "a" at `updatedAt` 100. -/
def tieInc : Note := ⟨"a", strToL "inc", [], none, some 100, false⟩

/-- A valid imported candidate note. -/
def candOk : Cand :=
  some ⟨some (.vstr (strToL "1")), some (.vstr (strToL "T")),
        some (.vstr (strToL "C")), some (.vbool false),
        some (.vnum 1), some (.vnum 1)⟩

/-- An invalid imported candidate note (`updatedAt` is a string). -/
def candBad : Cand :=
  some ⟨some (.vstr (strToL "2")), some (.vstr (strToL "T")),
        some (.vstr (strToL "C")), some (.vbool false),
        some (.vnum 1), some (.vstr (strToL "x"))⟩

end MiniNotes

namespace MiniNotes

/-! ## Theorems -/

/-! ### Character-level helper lemmas -/

theorem toNat_ofNat_lt {n : Nat} (h : n < 0xd800) : (Char.ofNat n).toNat = n := by
  unfold Char.ofNat
  rw [dif_pos (Or.inl h)]
  simp [Char.ofNatAux, Char.toNat, UInt32.toNat, BitVec.toNat_ofNatLt]

theorem lowerChar_toNat (c : Char) :
    (lowerChar c).toNat =
      if 65 ≤ c.toNat ∧ c.toNat ≤ 90 then c.toNat + 32 else c.toNat := by
  unfold lowerChar
  split
  case isTrue h => exact toNat_ofNat_lt (by omega)
  case isFalse h => rfl

theorem lowerChar_idem (c : Char) : lowerChar (lowerChar c) = lowerChar c := by
  have h := lowerChar_toNat c
  show (if 65 ≤ (lowerChar c).toNat ∧ (lowerChar c).toNat ≤ 90
        then Char.ofNat ((lowerChar c).toNat + 32) else lowerChar c) = lowerChar c
  by_cases hc : 65 ≤ c.toNat ∧ c.toNat ≤ 90
  · rw [if_pos hc] at h; rw [if_neg (by omega)]
  · rw [if_neg hc] at h; rw [if_neg (by omega)]

theorem lowerStr_idem (s : Str) : lowerStr (lowerStr s) = lowerStr s := by
  unfold lowerStr
  rw [List.map_map]
  exact List.map_congr_left (fun a _ => lowerChar_idem a)

/-! ### C6: the Note Store load path (`loadNotes` in `storage.js`) -/

/-- C6, counterexample: the claim says `loadNotes` returns a sequence of
notes for every stored blob value; but the blob "5" parses (per JS,
`JSON.parse("5")` is the number 5) to a truthy non-array value, which
`loadNotes` returns as-is — not a sequence. -/
theorem loadNotes_counterexample :
    loadNotes jsonParseFive (some (strToL "5")) = Json.jnum 5 ∧
    (loadNotes jsonParseFive (some (strToL "5"))).isArr = false :=
  ⟨rfl, rfl⟩

/-- C6, amended: `loadNotes` never throws; on a missing key or a
deserialization fault it returns the empty sequence, and a falsy parse
result also yields the empty sequence; but a truthy parse result is
returned unchanged, even when it is not an array of notes. -/
theorem loadNotes_amended (parse : Str → Option Json) (s : Str) (v : Json) :
    loadNotes parse none = Json.jarr [] ∧
    (parse s = none → loadNotes parse (some s) = Json.jarr []) ∧
    (parse s = some v → jsTruthy v = false → loadNotes parse (some s) = Json.jarr []) ∧
    (parse s = some v → jsTruthy v = true → loadNotes parse (some s) = v) := by
  refine ⟨rfl, ?_, ?_, ?_⟩
  · intro h; simp [loadNotes, h]
  · intro h hv; simp [loadNotes, h, hv]
  · intro h hv; simp [loadNotes, h, hv]

/-- Witness for `loadNotes_amended` at a concrete fault input. -/
theorem loadNotes_amended_witness :
    loadNotes jsonParseFive (some (strToL "x")) = Json.jarr [] :=
  (loadNotes_amended jsonParseFive (strToL "x") Json.jnull).2.1 rfl

/-! ### C8: the sync read-path normalizer -/

/-- C8, counterexample: the numeric timestamp 0 lies below the fixed
threshold, yet it is not interpreted as epoch seconds and scaled up
(which would give 0 ms); being falsy it falls through to the
current-time default. -/
theorem apiTimestampZero_counterexample :
    (0 : Int) < 1000000000000 ∧
    (loadNormalize dateParseNone 999 [] apiRecordZeroUpd).updatedAt = 999 ∧
    ¬(loadNormalize dateParseNone 999 [] apiRecordZeroUpd).updatedAt = 0 * 1000 := by
  refine ⟨by norm_num, by decide, by decide⟩

/-- C8, amended: for every remote record, a nonzero numeric timestamp at
or below the fixed threshold is interpreted as epoch seconds and scaled
up to milliseconds while values above it are kept as milliseconds; a
non-empty string timestamp is parsed as a date; an absent, zero, empty
or unparseable timestamp defaults to the current time; and a record with
no `pinned` field is normalized with `pinned = false`. -/
theorem apiNormalize_amended (dateParse : Str → Option Int) (now : Int) (uuid : Str)
    (n : ApiRecord) (v t : Int) (s : Str) :
    (n.updatedAt = some (.tnum v) → v ≠ 0 → v ≤ 1000000000000 →
      (loadNormalize dateParse now uuid n).updatedAt = v * 1000) ∧
    (n.updatedAt = some (.tnum v) → v > 1000000000000 →
      (loadNormalize dateParse now uuid n).updatedAt = v) ∧
    (n.updatedAt = some (.tstr s) → s ≠ [] → dateParse s = some t →
      (loadNormalize dateParse now uuid n).updatedAt = t) ∧
    (n.updatedAt = some (.tstr s) → s ≠ [] → dateParse s = none →
      (loadNormalize dateParse now uuid n).updatedAt = now) ∧
    (n.updatedAt = some (.tstr []) →
      (loadNormalize dateParse now uuid n).updatedAt = now) ∧
    (n.updatedAt = some (.tnum 0) →
      (loadNormalize dateParse now uuid n).updatedAt = now) ∧
    (n.updatedAt = none → n.updated_at = none → n.modifiedAt = none →
      n.modified_at = none →
      (loadNormalize dateParse now uuid n).updatedAt = now) ∧
    (n.createdAt = some (.tnum v) → v ≠ 0 → v ≤ 1000000000000 →
      (loadNormalize dateParse now uuid n).createdAt = v * 1000) ∧
    (n.createdAt = none → n.created_at = none → n.createdOn = none →
      n.created_on = none →
      (loadNormalize dateParse now uuid n).createdAt = now) ∧
    (n.pinned = none → (loadNormalize dateParse now uuid n).pinned = false) := by
  refine ⟨?_, ?_, ?_, ?_, ?_, ?_, ?_, ?_, ?_, ?_⟩
  · intro h1 h2 h3
    simp only [loadNormalize, h1, Option.some_orElse, toMs]
    rw [if_neg h2, if_neg (by omega)]
    rfl
  · intro h1 h2
    simp only [loadNormalize, h1, Option.some_orElse, toMs]
    rw [if_neg (by omega), if_pos (by omega)]
    rfl
  · intro h1 h2 h3
    simp only [loadNormalize, h1, Option.some_orElse, toMs]
    rw [if_neg h2, h3]
    rfl
  · intro h1 h2 h3
    simp only [loadNormalize, h1, Option.some_orElse, toMs]
    rw [if_neg h2, h3]
    rfl
  · intro h1
    simp only [loadNormalize, h1, Option.some_orElse, toMs]
    simp
  · intro h1
    simp only [loadNormalize, h1, Option.some_orElse, toMs]
    simp
  · intro h1 h2 h3 h4
    simp only [loadNormalize, h1, h2, h3, h4, Option.none_orElse, toMs]
    rfl
  · intro h1 h2 h3
    simp only [loadNormalize, h1, Option.some_orElse, toMs]
    rw [if_neg h2, if_neg (by omega)]
    rfl
  · intro h1 h2 h3 h4
    simp only [loadNormalize, h1, h2, h3, h4, Option.none_orElse, toMs]
    rfl
  · intro h1
    simp [loadNormalize, h1]

/-- Witness for `apiNormalize_amended` at a concrete record: the epoch
seconds value 5 scales to 5000 ms. -/
theorem apiNormalize_amended_witness :
    (loadNormalize dateParseNone 777 [] apiRecordUpdFive).updatedAt = 5 * 1000 :=
  (apiNormalize_amended dateParseNone 777 [] apiRecordUpdFive 5 0 []).1
    rfl (by norm_num) (by norm_num)

/-! ### C7: import validation -/

theorem isStrVal_iff (x : Option JVal) :
    isStrVal x = true ↔ ∃ s, x = some (.vstr s) := by
  cases x with
  | none => simp [isStrVal]
  | some v => cases v <;> simp [isStrVal]

theorem isBoolVal_iff (x : Option JVal) :
    isBoolVal x = true ↔ ∃ b, x = some (.vbool b) := by
  cases x with
  | none => simp [isBoolVal]
  | some v => cases v <;> simp [isBoolVal]

theorem isFiniteNum_iff (x : Option JVal) :
    isFiniteNum x = true ↔ ∃ k, x = some (.vnum k) := by
  cases x with
  | none => simp [isFiniteNum]
  | some v => cases v <;> simp [isFiniteNum]

/-- C7: the import gate accepts a candidate exactly when `id`, `title` and
`content` are strings, `pinned` is a boolean and the timestamps are finite
numbers; invalid candidates are dropped silently while the valid ones
proceed in order; a parse failure or a batch with zero valid notes yields
an error with an empty notes list, and an error is reported exactly when
no notes survive. -/
theorem importGate (nr : RawNote) (l : List Cand) (mv : Option Int)
    (input : Option ImportData) :
    (isValidNote (some nr) = true ↔
      ((∃ s, nr.id = some (.vstr s)) ∧ (∃ s, nr.title = some (.vstr s)) ∧
       (∃ s, nr.content = some (.vstr s)) ∧ (∃ b, nr.pinned = some (.vbool b)) ∧
       (∃ k, nr.createdAt = some (.vnum k)) ∧ (∃ k, nr.updatedAt = some (.vnum k)))) ∧
    ((parseImportedFile (some (.darr l))).notes = l.filter isValidNote) ∧
    ((parseImportedFile (some (.dobj (some l) mv))).notes = l.filter isValidNote) ∧
    (parseImportedFile none = ⟨[], none, some "Invalid JSON file."⟩) ∧
    (l.filter isValidNote = [] →
      (parseImportedFile (some (.darr l))).notes = [] ∧
      (parseImportedFile (some (.darr l))).error =
        some "No valid notes found in file.") ∧
    ((parseImportedFile input).error = none ↔ (parseImportedFile input).notes ≠ []) := by
  refine ⟨?_, ?_, ?_, rfl, ?_, ?_⟩
  · simp only [isValidNote, Bool.and_eq_true, isStrVal_iff, isBoolVal_iff, isFiniteNum_iff]
    tauto
  · by_cases hf : l.filter isValidNote = [] <;>
      simp [parseImportedFile, sanitizeNotesArray, hf]
  · by_cases hf : l.filter isValidNote = [] <;>
      simp [parseImportedFile, sanitizeNotesArray, hf]
  · intro hf
    simp [parseImportedFile, sanitizeNotesArray, hf]
  · cases input with
    | none => simp [parseImportedFile]
    | some d =>
      cases d with
      | darr l2 =>
        by_cases hf : l2.filter isValidNote = [] <;>
          simp [parseImportedFile, sanitizeNotesArray, hf]
      | dobj mn mv2 =>
        cases mn with
        | none => simp [parseImportedFile, sanitizeNotesArray]
        | some l2 =>
          by_cases hf : l2.filter isValidNote = [] <;>
            simp [parseImportedFile, sanitizeNotesArray, hf]
      | dprim => simp [parseImportedFile, sanitizeNotesArray]

/-- Witness for `importGate` on a concrete two-candidate batch: the invalid
candidate is dropped, the valid one survives. -/
theorem importGate_witness :
    (parseImportedFile (some (.darr [candOk, candBad]))).notes = [candOk] ∧
    (parseImportedFile (some (.darr ([] : List Cand)))).notes = [] ∧
    (parseImportedFile (some (.darr ([] : List Cand)))).error =
      some "No valid notes found in file." := by
  have h1 := (importGate ⟨none, none, none, none, none, none⟩ [candOk, candBad]
    none (some (.darr [candOk, candBad]))).2.1
  have h2 := (importGate ⟨none, none, none, none, none, none⟩ ([] : List Cand)
    none (some (.darr ([] : List Cand)))).2.2.2.2.1 (by decide)
  exact ⟨by rw [h1]; decide, h2.1, h2.2⟩

/-! ### C2: tag predicates of `matchesQuery` -/

/-- C2: whenever the query parses to one or more tags, a note matches only
if every queried tag is in the note's extracted tag set — a single absent
tag forces a non-match regardless of free text — and when the parsed free
text is non-empty, a match additionally requires the text to occur
case-insensitively in the title or the content. -/
theorem matchesQuery_tags (n : Note) (raw : Str) :
    ((parseQuery raw).2 ≠ [] →
      matchesQuery n raw = true →
        (∀ t ∈ (parseQuery raw).2,
          (extractTags [n.title, n.content]).contains t = true) ∧
        ((parseQuery raw).1 ≠ [] →
          (strIncludes (lowerStr n.title) (lowerStr (parseQuery raw).1) = true ∨
           strIncludes (lowerStr n.content) (lowerStr (parseQuery raw).1) = true))) ∧
    (∀ t ∈ (parseQuery raw).2,
      (extractTags [n.title, n.content]).contains t = false →
        matchesQuery n raw = false) := by
  constructor
  · intro _ hm
    simp only [matchesQuery] at hm
    cases hall : (parseQuery raw).2.all
        (fun t => (extractTags [n.title, n.content]).contains t) with
    | false => rw [hall] at hm; simp at hm
    | true =>
      rw [hall] at hm
      rw [if_pos rfl] at hm
      refine ⟨fun t ht => List.all_eq_true.mp hall t ht, fun htext => ?_⟩
      rw [if_pos htext] at hm
      simpa using hm
  · intro t ht hcon
    simp only [matchesQuery]
    cases hall : (parseQuery raw).2.all
        (fun t => (extractTags [n.title, n.content]).contains t) with
    | false => simp
    | true =>
      exfalso
      have := List.all_eq_true.mp hall t ht
      rw [hcon] at this
      cases this

/-- Witness for `matchesQuery_tags` on a concrete matching note and query. -/
theorem matchesQuery_tags_witness :
    (∀ t ∈ (parseQuery (strToL "hello #work")).2,
      (extractTags [strToL "hello #work", ([] : Str)]).contains t = true) ∧
    ((parseQuery (strToL "hello #work")).1 ≠ [] →
      (strIncludes (lowerStr (strToL "hello #work"))
          (lowerStr (parseQuery (strToL "hello #work")).1) = true ∨
       strIncludes (lowerStr ([] : Str))
          (lowerStr (parseQuery (strToL "hello #work")).1) = true)) :=
  (matchesQuery_tags ⟨"w", strToL "hello #work", [], none, none, false⟩
    (strToL "hello #work")).1 (by decide) (by decide)

/-! ### Association-list lemmas for the merge map -/

theorem mapSet_cons_eq (k k1 : String) (v v1 : Note) (m : AList) (h : k1 = k) :
    mapSet k v ((k1, v1) :: m) = (k1, v) :: m := by
  unfold mapSet; rw [if_pos h]

theorem mapSet_cons_ne (k k1 : String) (v v1 : Note) (m : AList) (h : ¬k1 = k) :
    mapSet k v ((k1, v1) :: m) = (k1, v1) :: mapSet k v m := by
  show (if k1 = k then (k1, v) :: m else (k1, v1) :: mapSet k v m) = _
  rw [if_neg h]

theorem mapGet_cons_eq (k k1 : String) (v1 : Note) (m : AList) (h : k1 = k) :
    mapGet k ((k1, v1) :: m) = some v1 := by
  unfold mapGet; rw [if_pos h]

theorem mapGet_cons_ne (k k1 : String) (v1 : Note) (m : AList) (h : ¬k1 = k) :
    mapGet k ((k1, v1) :: m) = mapGet k m := by
  show (if k1 = k then some v1 else mapGet k m) = _
  rw [if_neg h]

theorem mapGet_mapSet (m : AList) (k k1 : String) (v : Note) :
    mapGet k1 (mapSet k v m) = if k = k1 then some v else mapGet k1 m := by
  induction m with
  | nil => simp [mapSet, mapGet]
  | cons q m ih =>
    obtain ⟨k2, v2⟩ := q
    by_cases h2 : k2 = k
    · subst h2
      by_cases h1 : k2 = k1 <;> simp [mapSet, mapGet, h1]
    · by_cases h1 : k2 = k1
      · subst h1
        have : ¬k = k2 := fun he => h2 he.symm
        simp [mapSet, mapGet, h2, this]
      · simp [mapSet, mapGet, h2, h1, ih]

theorem mem_mapSet (m : AList) (k : String) (v : Note) (p : String × Note)
    (hp : p ∈ mapSet k v m) : p = (k, v) ∨ p ∈ m := by
  induction m with
  | nil => simpa [mapSet] using hp
  | cons q m ih =>
    obtain ⟨k2, v2⟩ := q
    by_cases h2 : k2 = k
    · rw [mapSet_cons_eq k k2 v v2 m h2] at hp
      rcases List.mem_cons.mp hp with h | h
      · exact Or.inl (by rw [h, h2])
      · exact Or.inr (List.mem_cons_of_mem _ h)
    · rw [mapSet_cons_ne k k2 v v2 m h2] at hp
      rcases List.mem_cons.mp hp with h | h
      · exact Or.inr (by rw [h]; exact List.mem_cons_self _ _)
      · rcases ih h with h3 | h3
        · exact Or.inl h3
        · exact Or.inr (List.mem_cons_of_mem _ h3)

theorem keys_mapSet (m : AList) (k k1 : String) (v : Note) :
    k1 ∈ (mapSet k v m).map Prod.fst ↔ k1 = k ∨ k1 ∈ m.map Prod.fst := by
  induction m with
  | nil => simp [mapSet]
  | cons q m ih =>
    obtain ⟨k2, v2⟩ := q
    by_cases h2 : k2 = k
    · rw [mapSet_cons_eq k k2 v v2 m h2, h2]
      simp only [List.map_cons, List.mem_cons]
      tauto
    · rw [mapSet_cons_ne k k2 v v2 m h2]
      simp only [List.map_cons, List.mem_cons, ih]
      tauto

theorem nodup_keys_mapSet (m : AList) (k : String) (v : Note)
    (h : (m.map Prod.fst).Nodup) : ((mapSet k v m).map Prod.fst).Nodup := by
  induction m with
  | nil => simp [mapSet]
  | cons q m ih =>
    obtain ⟨k2, v2⟩ := q
    rw [List.map_cons, List.nodup_cons] at h
    by_cases h2 : k2 = k
    · rw [mapSet_cons_eq k k2 v v2 m h2]
      rw [List.map_cons, List.nodup_cons]
      exact ⟨h.1, h.2⟩
    · rw [mapSet_cons_ne k k2 v v2 m h2]
      rw [List.map_cons, List.nodup_cons]
      constructor
      · intro hk
        rcases (keys_mapSet m k k2 v).mp hk with h3 | h3
        · exact h2 h3
        · exact h.1 h3
      · exact ih h.2

theorem mapGet_mem (m : AList) (k : String) (v : Note)
    (h : mapGet k m = some v) : (k, v) ∈ m := by
  induction m with
  | nil => simp [mapGet] at h
  | cons q m ih =>
    obtain ⟨k2, v2⟩ := q
    by_cases h2 : k2 = k
    · rw [mapGet_cons_eq k k2 v2 m h2] at h
      rw [Option.some.injEq] at h
      rw [← h, ← h2]
      exact List.mem_cons_self _ _
    · rw [mapGet_cons_ne k k2 v2 m h2] at h
      exact List.mem_cons_of_mem _ (ih h)

/-! ### Lemmas about the two loops of `mergeNotes` -/

theorem buildMap_vals (P : Note → Prop) :
    ∀ (l : List Note) (m : AList), (∀ p ∈ m, P p.2) → (∀ n ∈ l, P n) →
      ∀ p ∈ buildMap l m, P p.2 := by
  intro l
  induction l with
  | nil => intro m hm _ p hp; exact hm p hp
  | cons n l ih =>
    intro m hm hl p hp
    simp only [buildMap, List.foldl_cons] at hp
    refine ih (mapSet n.id n m) ?_ (fun x hx => hl x (by simp [hx])) p hp
    intro q hq
    rcases mem_mapSet m n.id n q hq with h | h
    · rw [h]; exact hl n (by simp)
    · exact hm q h

theorem mergeFold_vals (P : Note → Prop) :
    ∀ (l : List Note) (m : AList), (∀ p ∈ m, P p.2) → (∀ n ∈ l, P n) →
      ∀ p ∈ mergeFold l m, P p.2 := by
  intro l
  induction l with
  | nil => intro m hm _ p hp; exact hm p hp
  | cons n l ih =>
    intro m hm hl p hp
    simp only [mergeFold, List.foldl_cons] at hp
    refine ih (mergeStep m n) ?_ (fun x hx => hl x (by simp [hx])) p hp
    intro q hq
    unfold mergeStep at hq
    cases hg : mapGet n.id m with
    | none =>
      rw [hg] at hq
      rcases mem_mapSet m n.id n q hq with h | h
      · rw [h]; exact hl n (by simp)
      · exact hm q h
    | some prev =>
      rw [hg] at hq
      rcases mem_mapSet m n.id _ q hq with h | h
      · rw [h]
        by_cases hc : uval prev ≤ uval n
        · simp only [if_pos hc]; exact hl n (by simp)
        · simp only [if_neg hc]; exact hm (n.id, prev) (mapGet_mem m n.id prev hg)
      · exact hm q h

theorem keys_buildMap (k : String) :
    ∀ (l : List Note) (m : AList),
      k ∈ (buildMap l m).map Prod.fst ↔ k ∈ m.map Prod.fst ∨ k ∈ noteIds l := by
  intro l
  induction l with
  | nil => intro m; simp [buildMap, noteIds]
  | cons n l ih =>
    intro m
    simp only [buildMap, List.foldl_cons]
    rw [show (List.foldl (fun m n => mapSet n.id n m) (mapSet n.id n m) l) =
        buildMap l (mapSet n.id n m) from rfl]
    rw [ih (mapSet n.id n m), keys_mapSet]
    simp [noteIds]
    tauto

theorem keys_mergeStep (m : AList) (n : Note) (k : String) :
    k ∈ (mergeStep m n).map Prod.fst ↔ k = n.id ∨ k ∈ m.map Prod.fst := by
  unfold mergeStep
  cases hg : mapGet n.id m <;> rw [keys_mapSet]

theorem keys_mergeFold (k : String) :
    ∀ (l : List Note) (m : AList),
      k ∈ (mergeFold l m).map Prod.fst ↔ k ∈ m.map Prod.fst ∨ k ∈ noteIds l := by
  intro l
  induction l with
  | nil => intro m; simp [mergeFold, noteIds]
  | cons n l ih =>
    intro m
    simp only [mergeFold, List.foldl_cons]
    rw [show (List.foldl mergeStep (mergeStep m n) l) = mergeFold l (mergeStep m n) from rfl]
    rw [ih (mergeStep m n), keys_mergeStep]
    simp [noteIds]
    tauto

theorem nodup_keys_mergeStep (m : AList) (n : Note)
    (h : (m.map Prod.fst).Nodup) : ((mergeStep m n).map Prod.fst).Nodup := by
  unfold mergeStep
  cases mapGet n.id m <;> exact nodup_keys_mapSet m n.id _ h

theorem nodup_keys_buildMap :
    ∀ (l : List Note) (m : AList), (m.map Prod.fst).Nodup →
      ((buildMap l m).map Prod.fst).Nodup := by
  intro l
  induction l with
  | nil => intro m hm; exact hm
  | cons n l ih =>
    intro m hm
    simp only [buildMap, List.foldl_cons]
    exact ih (mapSet n.id n m) (nodup_keys_mapSet m n.id n hm)

theorem nodup_keys_mergeFold :
    ∀ (l : List Note) (m : AList), (m.map Prod.fst).Nodup →
      ((mergeFold l m).map Prod.fst).Nodup := by
  intro l
  induction l with
  | nil => intro m hm; exact hm
  | cons n l ih =>
    intro m hm
    simp only [mergeFold, List.foldl_cons]
    exact ih (mergeStep m n) (nodup_keys_mergeStep m n hm)

theorem idInv_buildMap :
    ∀ (l : List Note) (m : AList), (∀ p ∈ m, (p.2).id = p.1) →
      ∀ p ∈ buildMap l m, (p.2).id = p.1 := by
  intro l
  induction l with
  | nil => intro m hm p hp; exact hm p hp
  | cons n l ih =>
    intro m hm p hp
    simp only [buildMap, List.foldl_cons] at hp
    refine ih (mapSet n.id n m) ?_ p hp
    intro q hq
    rcases mem_mapSet m n.id n q hq with h | h
    · rw [h]
    · exact hm q h

theorem idInv_mergeFold :
    ∀ (l : List Note) (m : AList), (∀ p ∈ m, (p.2).id = p.1) →
      ∀ p ∈ mergeFold l m, (p.2).id = p.1 := by
  intro l
  induction l with
  | nil => intro m hm p hp; exact hm p hp
  | cons n l ih =>
    intro m hm p hp
    simp only [mergeFold, List.foldl_cons] at hp
    refine ih (mergeStep m n) ?_ p hp
    intro q hq
    unfold mergeStep at hq
    cases hg : mapGet n.id m with
    | none =>
      rw [hg] at hq
      rcases mem_mapSet m n.id n q hq with h | h
      · rw [h]
      · exact hm q h
    | some prev =>
      rw [hg] at hq
      rcases mem_mapSet m n.id _ q hq with h | h
      · rw [h]
        by_cases hc : uval prev ≤ uval n
        · simp only [if_pos hc]
        · simp only [if_neg hc]
          exact hm (n.id, prev) (mapGet_mem m n.id prev hg)
      · exact hm q h

/-! ### `findById` lemmas -/

theorem findById_cons (n : Note) (l : List Note) (i : String) :
    findById (n :: l) i = if n.id = i then some n else findById l i := by
  unfold findById
  rw [List.find?_cons]
  by_cases h : n.id = i
  · have hb : (n.id == i) = true := beq_iff_eq.mpr h
    rw [hb, if_pos h]
  · have hb : (n.id == i) = false := beq_eq_false_iff_ne.mpr h
    rw [hb, if_neg h]

theorem findById_eq_none (l : List Note) (i : String)
    (h : i ∉ noteIds l) : findById l i = none := by
  unfold findById
  rw [List.find?_eq_none]
  intro x hx
  simp only [beq_iff_eq]
  intro he
  exact h (by simp [noteIds, List.mem_map]; exact ⟨x, hx, he⟩)

theorem findById_map_snd (m : AList) (i : String)
    (hinv : ∀ p ∈ m, (p.2).id = p.1) :
    findById (m.map Prod.snd) i = mapGet i m := by
  induction m with
  | nil => rfl
  | cons q m ih =>
    obtain ⟨k, v⟩ := q
    have hv : v.id = k := hinv (k, v) (by simp)
    simp only [List.map_cons]
    rw [findById_cons]
    show _ = (if k = i then some v else mapGet i m)
    by_cases h : k = i
    · rw [if_pos (by rw [hv, h]), if_pos h]
    · rw [if_neg (by rw [hv]; exact h), if_neg h]
      exact ih (fun p hp => hinv p (by simp [hp]))

theorem mapSet_fresh (m : AList) (k : String) (v : Note)
    (h : k ∉ m.map Prod.fst) : mapSet k v m = m ++ [(k, v)] := by
  induction m with
  | nil => rfl
  | cons q m ih =>
    obtain ⟨k2, v2⟩ := q
    simp only [List.map_cons, List.mem_cons] at h
    push_neg at h
    unfold mapSet
    rw [if_neg (fun he => h.1 he.symm)]
    simp [ih h.2]

theorem buildMap_nodup_eq :
    ∀ (l : List Note) (m : AList), (∀ n ∈ l, n.id ∉ m.map Prod.fst) →
      (noteIds l).Nodup → buildMap l m = m ++ l.map (fun n => (n.id, n)) := by
  intro l
  induction l with
  | nil => intro m _ _; simp [buildMap]
  | cons n l ih =>
    intro m hf hn
    simp only [noteIds, List.map_cons, List.nodup_cons] at hn
    simp only [buildMap, List.foldl_cons]
    rw [show (List.foldl (fun m n => mapSet n.id n m) (mapSet n.id n m) l) =
        buildMap l (mapSet n.id n m) from rfl]
    rw [mapSet_fresh m n.id n (hf n (by simp))]
    rw [ih (m ++ [(n.id, n)]) ?_ hn.2]
    · simp
    · intro x hx
      simp only [List.map_append, List.mem_append]
      push_neg
      refine ⟨hf x (by simp [hx]), ?_⟩
      simp only [List.map_cons, List.map_nil, List.mem_singleton]
      intro he
      exact hn.1 (by simp [noteIds, List.mem_map]; exact ⟨x, hx, he⟩)

theorem mapGet_mapList (l : List Note) (i : String) :
    mapGet i (l.map (fun n => (n.id, n))) = findById l i := by
  induction l with
  | nil => rfl
  | cons n l ih =>
    simp only [List.map_cons]
    rw [findById_cons]
    show (if n.id = i then some n else mapGet i (l.map (fun n => (n.id, n)))) = _
    by_cases h : n.id = i <;> simp [h, ih]

theorem mapGet_buildMap (base : List Note) (i : String)
    (hb : (noteIds base).Nodup) :
    mapGet i (buildMap base []) = findById base i := by
  rw [buildMap_nodup_eq base [] (by simp) hb]
  rw [List.nil_append]
  exact mapGet_mapList base i

theorem mapGet_mergeStep_other (m : AList) (n : Note) (i : String)
    (h : n.id ≠ i) : mapGet i (mergeStep m n) = mapGet i m := by
  unfold mergeStep
  cases mapGet n.id m <;> rw [mapGet_mapSet] <;> rw [if_neg h]

theorem mapGet_mergeFold :
    ∀ (inc : List Note) (m : AList) (i : String), (noteIds inc).Nodup →
      mapGet i (mergeFold inc m) =
        match findById inc i with
        | some ni =>
          match mapGet i m with
          | some prev => some (if uval prev ≤ uval ni then ni else prev)
          | none => some ni
        | none => mapGet i m := by
  intro inc
  induction inc with
  | nil => intro m i _; simp [mergeFold, findById, List.find?]
  | cons n inc ih =>
    intro m i hn
    simp only [noteIds, List.map_cons, List.nodup_cons] at hn
    simp only [mergeFold, List.foldl_cons]
    rw [show (List.foldl mergeStep (mergeStep m n) inc) = mergeFold inc (mergeStep m n) from rfl]
    rw [ih (mergeStep m n) i hn.2]
    rw [findById_cons]
    by_cases hi : n.id = i
    · subst hi
      have hnone : findById inc n.id = none :=
        findById_eq_none inc n.id (by simpa [noteIds] using hn.1)
      rw [hnone, if_pos rfl]
      unfold mergeStep
      cases hg : mapGet n.id m with
      | none => simp [mapGet_mapSet]
      | some prev => simp [mapGet_mapSet]
    · rw [if_neg hi, mapGet_mergeStep_other m n i hi]

/-! ### C10, C1, C9: the merge engine -/

/-- C10: merge neither loses nor invents notes — every element of the
result is one of the input notes, the result holds at most one note per
id, and the result's id set is the union of the input id sets. -/
theorem mergeNotes_conserves (base inc : List Note) (x : Note) (i : String) :
    (x ∈ mergeNotes base inc → x ∈ base ∨ x ∈ inc) ∧
    (noteIds (mergeNotes base inc)).Nodup ∧
    (i ∈ noteIds (mergeNotes base inc) ↔ i ∈ noteIds base ∨ i ∈ noteIds inc) := by
  have hinv : ∀ p ∈ mergeFold inc (buildMap base []), (p.2).id = p.1 :=
    idInv_mergeFold inc (buildMap base []) (idInv_buildMap base [] (by simp))
  have hids : noteIds (mergeNotes base inc) =
      (mergeFold inc (buildMap base [])).map Prod.fst := by
    unfold mergeNotes noteIds
    rw [List.map_map]
    exact List.map_congr_left (fun p hp => hinv p hp)
  refine ⟨?_, ?_, ?_⟩
  · intro hx
    unfold mergeNotes at hx
    rw [List.mem_map] at hx
    obtain ⟨p, hp, hpx⟩ := hx
    have hv := mergeFold_vals (fun y => y ∈ base ∨ y ∈ inc) inc (buildMap base [])
      (buildMap_vals (fun y => y ∈ base ∨ y ∈ inc) base [] (by simp)
        (fun n hn => Or.inl hn))
      (fun n hn => Or.inr hn) p hp
    rwa [hpx] at hv
  · rw [hids]
    exact nodup_keys_mergeFold inc (buildMap base [])
      (nodup_keys_buildMap base [] (by simp))
  · rw [hids, keys_mergeFold, keys_buildMap]
    simp

/-- Witness for `mergeNotes_conserves` at a concrete pair of lists. -/
theorem mergeNotes_conserves_witness :
    (tieInc ∈ mergeNotes [tieBase] [tieInc] → tieInc ∈ [tieBase] ∨ tieInc ∈ [tieInc]) ∧
    (noteIds (mergeNotes [tieBase] [tieInc])).Nodup ∧
    ("a" ∈ noteIds (mergeNotes [tieBase] [tieInc]) ↔
      "a" ∈ noteIds [tieBase] ∨ "a" ∈ noteIds [tieInc]) :=
  mergeNotes_conserves [tieBase] [tieInc] tieInc "a"

/-- C1: last-write-wins by id — for an id in both inputs the incoming note
survives exactly when its `updatedAt ?? 0` is at least the base note's
(ties favour incoming), and an id occurring in only one input keeps its
note unchanged. -/
theorem mergeNotes_lww (base inc : List Note)
    (hb : (noteIds base).Nodup) (hi : (noteIds inc).Nodup) (i : String) :
    findById (mergeNotes base inc) i =
      match findById base i, findById inc i with
      | some nb, some ni => some (if uval nb ≤ uval ni then ni else nb)
      | some nb, none => some nb
      | none, some ni => some ni
      | none, none => none := by
  unfold mergeNotes
  rw [findById_map_snd _ _
    (idInv_mergeFold inc (buildMap base []) (idInv_buildMap base [] (by simp)))]
  rw [mapGet_mergeFold inc (buildMap base []) i hi]
  rw [mapGet_buildMap base i hb]
  cases findById base i <;> cases findById inc i <;> rfl

/-- Witness for `mergeNotes_lww`: the spec's tie-break example — both copies
of note "a" carry `updatedAt` 100, and the incoming copy wins. -/
theorem mergeNotes_lww_witness :
    findById (mergeNotes [tieBase] [tieInc]) "a" = some tieInc :=
  (mergeNotes_lww [tieBase] [tieInc] (by decide) (by decide) "a").trans (by decide)

/-- C9: merge is idempotent — for a duplicate-free collection `X`,
`mergeNotes X X` associates every id with the unchanged note of `X`, and
its id set is exactly that of `X`. -/
theorem mergeNotes_idem (X : List Note) (h : (noteIds X).Nodup) (i : String) :
    findById (mergeNotes X X) i = findById X i ∧
    (i ∈ noteIds (mergeNotes X X) ↔ i ∈ noteIds X) := by
  constructor
  · unfold mergeNotes
    rw [findById_map_snd _ _
      (idInv_mergeFold X (buildMap X []) (idInv_buildMap X [] (by simp)))]
    rw [mapGet_mergeFold X (buildMap X []) i h]
    rw [mapGet_buildMap X i h]
    cases findById X i with
    | none => rfl
    | some nx => simp
  · have hinv : ∀ p ∈ mergeFold X (buildMap X []), (p.2).id = p.1 :=
      idInv_mergeFold X (buildMap X []) (idInv_buildMap X [] (by simp))
    have hids : noteIds (mergeNotes X X) =
        (mergeFold X (buildMap X [])).map Prod.fst := by
      unfold mergeNotes noteIds
      rw [List.map_map]
      exact List.map_congr_left (fun p hp => hinv p hp)
    rw [hids, keys_mergeFold, keys_buildMap]
    simp

/-- Witness for `mergeNotes_idem` at a concrete singleton collection. -/
theorem mergeNotes_idem_witness :
    findById (mergeNotes [tieBase] [tieBase]) "a" = findById [tieBase] "a" :=
  (mergeNotes_idem [tieBase] (by decide) "a").1

/-! ### C3: the list-view ordering -/

theorem noteLE_iff (a b : Note) :
    noteLE a b = true ↔
      (a.pinned = true ∧ b.pinned = false) ∨
      (a.pinned = b.pinned ∧ uval b ≤ uval a) := by
  unfold noteLE byPinnedThenUpdated
  rw [decide_eq_true_iff]
  cases ha : a.pinned <;> cases hb : b.pinned <;> simp [ha, hb]

theorem noteLE_total (a b : Note) : (noteLE a b || noteLE b a) = true := by
  rw [Bool.or_eq_true, noteLE_iff, noteLE_iff]
  cases ha : a.pinned <;> cases hb : b.pinned <;> simp [ha, hb] <;> omega

theorem noteLE_trans (a b c : Note) (h1 : noteLE a b = true)
    (h2 : noteLE b c = true) : noteLE a c = true := by
  rw [noteLE_iff] at h1 h2 ⊢
  cases ha : a.pinned <;> cases hb : b.pinned <;> cases hc : c.pinned <;>
    simp [ha, hb, hc] at h1 h2 ⊢ <;> omega

/-- C3: sorting with `byPinnedThenUpdated` is a stable sort (a permutation
preserving the relative order of any comparator-sorted subsequence) in
which every pinned note precedes every unpinned one and, within the same
pinned status, notes are in descending `updatedAt ?? 0` order; a note with
an undefined `updatedAt` compares as the minimum value 0 and so sorts
(weakly) last within its pinned group; and A(unpinned, 5), B(pinned, 1),
C(unpinned, 10) sort as B, C, A. -/
theorem sortNotes_contract (l : List Note) (a b : Note) (c : List Note) :
    List.Perm (sortNotes l) l ∧
    (sortNotes l).Pairwise (fun x y =>
      (y.pinned = true → x.pinned = true) ∧
      (x.pinned = y.pinned → uval y ≤ uval x)) ∧
    (c.Pairwise (fun x y => noteLE x y = true) → c.Sublist l →
      c.Sublist (sortNotes l)) ∧
    (a.updatedAt = none → a.pinned = b.pinned → noteLE b a = true) ∧
    sortNotes [noteA, noteB, noteC] = [noteB, noteC, noteA] := by
  have htrans : ∀ (x y z : Note),
      noteLE x y = true → noteLE y z = true → noteLE x z = true := noteLE_trans
  have htotal : ∀ (x y : Note), (noteLE x y || noteLE y x) = true := noteLE_total
  refine ⟨?_, ?_, ?_, ?_, ?_⟩
  · exact List.mergeSort_perm l noteLE
  · refine List.Pairwise.imp ?_ (List.sorted_mergeSort htrans htotal l)
    intro x y hxy
    rw [noteLE_iff] at hxy
    constructor
    · intro hy
      rcases hxy with ⟨hx, _⟩ | ⟨he, _⟩
      · exact hx
      · rw [he]; exact hy
    · intro he2
      rcases hxy with ⟨hx, hy⟩ | ⟨_, hu⟩
      · rw [he2, hy] at hx; cases hx
      · exact hu
  · intro hc hsub
    exact List.sublist_mergeSort htrans htotal hc hsub
  · intro h1 h2
    rw [noteLE_iff]
    right
    exact ⟨h2.symm, by simp [uval, h1]⟩
  · show List.mergeSort [noteA, noteB, noteC] noteLE = [noteB, noteC, noteA]
    norm_num [List.mergeSort, List.splitInTwo, List.splitAt, List.splitAt.go,
      List.merge, noteLE, byPinnedThenUpdated, uval, noteA, noteB, noteC]

/-- Witness for `sortNotes_contract` at a concrete list: the hypotheses of
the stability and minimum-value conjuncts discharged on concrete data. -/
theorem sortNotes_contract_witness :
    [noteB, noteC].Sublist (sortNotes [noteA, noteB, noteC]) ∧
    noteLE noteA ⟨"D", [], [], none, none, false⟩ = true := by
  have h := sortNotes_contract [noteA, noteB, noteC]
    (⟨"D", [], [], none, none, false⟩ : Note) noteA [noteB, noteC]
  exact ⟨h.2.2.1 (by decide) (by decide), h.2.2.2.1 rfl rfl⟩

/-! ### Lemmas on the tag token and the set collection (C5) -/

theorem findTagLen_bounds :
    ∀ (j0 : Nat) (rest : Str) (j : Nat),
      findTagLen rest j0 = some j → 2 ≤ j ∧ j ≤ j0 := by
  intro j0
  induction j0 using Nat.strong_induction_on with
  | _ j0 ih =>
    match j0 with
    | 0 => intro rest j h; simp [findTagLen] at h
    | 1 => intro rest j h; simp [findTagLen] at h
    | jj + 2 =>
      intro rest j h
      rw [findTagLen] at h
      by_cases hb : tagBoundaryOk rest (jj + 2) = true
      · rw [if_pos hb] at h
        rw [Option.some.injEq] at h
        omega
      · rw [if_neg hb] at h
        have := ih (jj + 1) (by omega) rest j h
        omega

theorem takeWhile_take (l : Str) (p : Char → Bool) (j : Nat)
    (h : j ≤ (l.takeWhile p).length) : (l.takeWhile p).take j = l.take j := by
  obtain ⟨u, hu⟩ := List.takeWhile_prefix p (l := l)
  conv_rhs => rw [← hu]
  rw [List.take_append_of_le_length h]

theorem tagAt_bounds (rest t : Str) (h : tagAt rest = some t) :
    2 ≤ t.length ∧ t.length ≤ 24 ∧ (∀ ch ∈ t, isTagChar ch = true) ∧
    rest.take t.length = t := by
  unfold tagAt at h
  simp only [] at h
  cases hf : findTagLen rest (min 24 (rest.takeWhile isTagChar).length) with
  | none => rw [hf] at h; cases h
  | some j =>
    rw [hf] at h
    simp only [Option.some.injEq] at h
    obtain ⟨h2, h24⟩ := findTagLen_bounds _ rest j hf
    have hj : j ≤ (rest.takeWhile isTagChar).length := le_trans h24 (min_le_right _ _)
    have hlen : t.length = j := by
      rw [← h, List.length_take]
      omega
    refine ⟨by omega, by omega, ?_, ?_⟩
    · intro ch hch
      rw [← h] at hch
      exact List.mem_takeWhile_imp (List.mem_of_mem_take hch)
    · rw [hlen, ← h]
      exact (takeWhile_take rest isTagChar j hj).symm

theorem lowerStr_length (s : Str) : (lowerStr s).length = s.length :=
  List.length_map s lowerChar

theorem scan_tags_shape (bnd : Char → Bool) :
    ∀ (fuel : Nat) (b : Bool) (s t : Str),
      t ∈ (scanQAux bnd fuel b s).2 →
        lowerStr t = t ∧ 2 ≤ t.length ∧ t.length ≤ 24 := by
  intro fuel
  induction fuel with
  | zero => intro b s t ht; cases ht
  | succ fuel ih =>
    intro b s t ht
    match s with
    | [] => cases ht
    | c :: cs =>
      simp only [scanQAux] at ht
      split at ht
      · -- `^#tag` attempt
        split at ht
        case _ tm heq =>
          rcases List.mem_cons.mp ht with h | h
          · obtain ⟨hb2, hb24, _, _⟩ := tagAt_bounds cs tm heq
            rw [h]
            exact ⟨lowerStr_idem tm, by rw [lowerStr_length]; omega,
                   by rw [lowerStr_length]; omega⟩
          · exact ih false (cs.drop tm.length) t h
        case _ heq => exact ih false cs t ht
      · -- boundary-char attempts
        split at ht
        · split at ht
          · split at ht
            case _ tm heq =>
              rcases List.mem_cons.mp ht with h | h
              · obtain ⟨hb2, hb24, _, _⟩ := tagAt_bounds _ tm heq
                rw [h]
                exact ⟨lowerStr_idem tm, by rw [lowerStr_length]; omega,
                       by rw [lowerStr_length]; omega⟩
              · exact ih false _ t h
            case _ heq => exact ih false _ t ht
          · exact ih false _ t ht
        · exact ih false _ t ht

theorem dedupFirst_not_mem_seen :
    ∀ (l seen : List Str) (t : Str), t ∈ dedupFirst seen l → t ∉ seen := by
  intro l
  induction l with
  | nil => intro seen t ht; cases ht
  | cons u l ih =>
    intro seen t ht
    unfold dedupFirst at ht
    by_cases hc : seen.contains u = true
    · rw [if_pos hc] at ht
      exact ih seen t ht
    · rw [if_neg hc] at ht
      rcases List.mem_cons.mp ht with h | h
      · rw [h]
        intro hmem
        exact hc (by simpa using hmem)
      · intro hmem
        exact ih (u :: seen) t h (List.mem_cons_of_mem _ hmem)

theorem dedupFirst_nodup : ∀ (l seen : List Str), (dedupFirst seen l).Nodup := by
  intro l
  induction l with
  | nil => intro seen; simp [dedupFirst]
  | cons u l ih =>
    intro seen
    unfold dedupFirst
    by_cases hc : seen.contains u = true
    · rw [if_pos hc]; exact ih seen
    · rw [if_neg hc]
      rw [List.nodup_cons]
      refine ⟨fun h => ?_, ih (u :: seen)⟩
      exact dedupFirst_not_mem_seen l (u :: seen) u h (List.mem_cons_self _ _)

theorem dedupFirst_subset :
    ∀ (l seen : List Str) (t : Str), t ∈ dedupFirst seen l → t ∈ l := by
  intro l
  induction l with
  | nil => intro seen t ht; cases ht
  | cons u l ih =>
    intro seen t ht
    unfold dedupFirst at ht
    by_cases hc : seen.contains u = true
    · rw [if_pos hc] at ht
      exact List.mem_cons_of_mem _ (ih seen t ht)
    · rw [if_neg hc] at ht
      rcases List.mem_cons.mp ht with h | h
      · rw [h]; exact List.mem_cons_self _ _
      · exact List.mem_cons_of_mem _ (ih (u :: seen) t h)

/-! ### C5: the Tag Extractor's set semantics -/

/-- C5: `extractTags` yields a duplicate-free set of lower-cased tags, each
at least 2 characters long (so one-character candidates are never
recognized); inputs differing only in tag letter case contribute one
element, `extractTags("Hello #Work and #work")` is exactly the singleton
set of "work", and `extractTags("text#notatag")` is empty because the `#`
lacks a leading boundary. -/
theorem extractTags_set (parts : List Str) (t : Str) :
    (extractTags parts).Nodup ∧
    (t ∈ extractTags parts → lowerStr t = t) ∧
    (t ∈ extractTags parts → 2 ≤ t.length) ∧
    extractTags [strToL "Hello #Work and #work"] = [strToL "work"] ∧
    extractTags [strToL "text#notatag"] = [] := by
  refine ⟨dedupFirst_nodup _ [], ?_, ?_, by decide, by decide⟩
  · intro ht
    have hs := dedupFirst_subset _ [] t ht
    exact (scan_tags_shape isExtBoundary _ true _ t hs).1
  · intro ht
    have hs := dedupFirst_subset _ [] t ht
    exact (scan_tags_shape isExtBoundary _ true _ t hs).2.1

/-- Witness for `extractTags_set` at a concrete extraction. -/
theorem extractTags_set_witness :
    lowerStr (strToL "work") = strToL "work" ∧ 2 ≤ (strToL "work").length := by
  have h := extractTags_set [strToL "Hello #Work and #work"] (strToL "work")
  exact ⟨h.2.1 (by decide), h.2.2.1 (by decide)⟩

/-! ### Character-class facts and scanner helpers for C4 -/

theorem isTagChar_ne_hash (c : Char) (h : isTagChar c = true) : c ≠ '#' := by
  intro he
  rw [he] at h
  simp [isTagChar, isWordChar] at h

theorem isTagChar_not_space (c : Char) (h : isTagChar c = true) :
    isJsSpace c = false := by
  simp only [isTagChar, isWordChar, Bool.or_eq_true, Bool.and_eq_true,
    decide_eq_true_eq, beq_iff_eq] at h
  simp only [isJsSpace, Bool.or_eq_true, Bool.and_eq_true,
    decide_eq_true_eq, beq_iff_eq]
  simp only [Bool.eq_false_iff, ne_eq, Bool.or_eq_true, Bool.and_eq_true,
    decide_eq_true_eq, beq_iff_eq]
  omega

theorem hash_not_space : isJsSpace '#' = false := by decide

theorem scanQAux_nil (bnd : Char → Bool) (fuel : Nat) (b : Bool) :
    scanQAux bnd fuel b [] = ([], []) := by
  cases fuel <;> rfl

theorem scanQAux_false_eq (bnd : Char → Bool) (fuel : Nat) (c : Char) (cs : Str)
    (hc : c ≠ '#') :
    scanQAux bnd (fuel + 1) true (c :: cs) = scanQAux bnd (fuel + 1) false (c :: cs) := by
  simp only [scanQAux]
  rw [if_neg (fun h => hc h.2), if_neg (fun h => by cases h.1)]

/-- Walking a block of non-`#` characters collects nothing in `specTags`,
and leaves as previous character the last character of the block. -/
theorem specTags_append_nohash :
    ∀ (t : Str) (p : Char) (v : Str), t ≠ [] → (∀ ch ∈ t, ch ≠ '#') →
      ∃ q ∈ t, specTags (some p) (t ++ v) = specTags (some q) v := by
  intro t
  induction t with
  | nil => intro p v h _; exact absurd rfl h
  | cons d t ih =>
    intro p v _ hall
    have hd : d ≠ '#' := hall d (by simp)
    rw [List.cons_append]
    rw [show specTags (some p) (d :: (t ++ v)) =
      (if anchorWs (some p) ∧ d = '#' then
        match tagAt (t ++ v) with
        | some u => [lowerStr u]
        | none => []
      else []) ++ specTags (some d) (t ++ v) from rfl]
    rw [if_neg (fun h => hd h.2), List.nil_append]
    cases t with
    | nil => exact ⟨d, by simp, rfl⟩
    | cons e t2 =>
      obtain ⟨q, hq, heq⟩ := ih d v (by simp) (fun ch hch => hall ch (by simp [hch]))
      exact ⟨q, by simp [hq], heq⟩

/-- The operational whitespace-boundary scan agrees position by position
with the declarative start-or-whitespace anchor characterisation. -/
theorem scan_spec_main :
    ∀ (N : Nat) (s : Str), s.length ≤ N →
      (∀ fuel, s.length ≤ fuel →
        (scanQAux isJsSpace fuel true s).2 = specTags none s) ∧
      (∀ fuel p, s.length ≤ fuel → isJsSpace p = false →
        (scanQAux isJsSpace fuel false s).2 = specTags (some p) s) ∧
      (∀ fuel p, s.length ≤ fuel → isJsSpace p = true →
        (∀ rest, s = '#' :: rest → tagAt rest = none) →
        (scanQAux isJsSpace fuel false s).2 = specTags (some p) s) := by
  intro N
  induction N with
  | zero =>
    intro s hs
    have hnil : s = [] := List.length_eq_zero.mp (Nat.le_zero.mp hs)
    subst hnil
    exact ⟨fun fuel _ => by rw [scanQAux_nil]; rfl,
           fun fuel p _ _ => by rw [scanQAux_nil]; rfl,
           fun fuel p _ _ _ => by rw [scanQAux_nil]; rfl⟩
  | succ N ih =>
    intro s hs
    cases s with
    | nil =>
      exact ⟨fun fuel _ => by rw [scanQAux_nil]; rfl,
             fun fuel p _ _ => by rw [scanQAux_nil]; rfl,
             fun fuel p _ _ _ => by rw [scanQAux_nil]; rfl⟩
    | cons c cs =>
      have hcs : cs.length ≤ N := by
        simp only [List.length_cons] at hs
        omega
      -- the not-at-start processing of `c :: cs`
      have hcore : ∀ f, cs.length ≤ f →
          (scanQAux isJsSpace (f + 1) false (c :: cs)).2 = specTags (some c) cs := by
        intro f hf
        simp only [scanQAux]
        rw [if_neg (fun h => by cases h.1)]
        split
        case _ rest =>
          -- cs = '#' :: rest
          simp only [List.length_cons] at hf hcs
          by_cases hbnd : isJsSpace c = true
          · rw [if_pos hbnd]
            cases htag : tagAt rest with
            | some t =>
              dsimp only
              conv_rhs => rw [show specTags (some c) ('#' :: rest) =
                (if anchorWs (some c) ∧ '#' = '#' then
                  match tagAt rest with
                  | some u => [lowerStr u]
                  | none => []
                else []) ++ specTags (some '#') rest from rfl]
              rw [if_pos ⟨by simpa [anchorWs] using hbnd, rfl⟩, htag]
              dsimp only
              rw [List.cons_append, List.nil_append]
              congr 1
              obtain ⟨h2, h24, hchars, htake⟩ := tagAt_bounds rest t htag
              have hsplit : t ++ rest.drop t.length = rest := by
                conv_rhs => rw [← List.take_append_drop t.length rest]
                rw [htake]
              obtain ⟨q, hq, heq⟩ := specTags_append_nohash t '#' (rest.drop t.length)
                (by intro he; rw [he] at h2; simp at h2)
                (fun ch hch => isTagChar_ne_hash ch (hchars ch hch))
              conv_rhs => rw [← hsplit]
              rw [heq]
              have hdlen : (rest.drop t.length).length ≤ N := by
                rw [List.length_drop]
                omega
              exact (ih (rest.drop t.length) hdlen).2.1 f q
                (by rw [List.length_drop]; omega)
                (isTagChar_not_space q (hchars q hq))
            | none =>
              dsimp only
              exact (ih ('#' :: rest) (by simp only [List.length_cons]; omega)).2.2
                f c (by simp only [List.length_cons]; omega) hbnd
                (fun r2 hr2 => by
                  have h9 : rest = r2 := by injection hr2
                  rw [← h9]; exact htag)
          · rw [if_neg hbnd]
            dsimp only
            conv_rhs => rw [show specTags (some c) ('#' :: rest) =
              (if anchorWs (some c) ∧ '#' = '#' then
                match tagAt rest with
                | some u => [lowerStr u]
                | none => []
              else []) ++ specTags (some '#') rest from rfl]
            rw [if_neg (fun h => hbnd (by simpa [anchorWs] using h.1)), List.nil_append]
            exact (ih ('#' :: rest) (by simp only [List.length_cons]; omega)).2.1
              f '#' (by simp only [List.length_cons]; omega) hash_not_space
        case _ hne =>
          -- cs does not start with '#'
          dsimp only
          cases cs with
          | nil => rw [scanQAux_nil]; rfl
          | cons d ds =>
            have hd : d ≠ '#' := by
              intro he
              exact hne ds (by rw [he])
            by_cases hcsp : isJsSpace d = true
            · -- prev is `c`; use the whitespace clause: head is not '#'
              by_cases hcp : isJsSpace c = true
              · exact (ih (d :: ds) hcs).2.2 f c hf hcp
                  (fun r2 hr2 => absurd (by injection hr2) hd)
              · exact (ih (d :: ds) hcs).2.1 f c hf
                  (Bool.eq_false_iff.mpr hcp)
            · by_cases hcp : isJsSpace c = true
              · exact (ih (d :: ds) hcs).2.2 f c hf hcp
                  (fun r2 hr2 => absurd (by injection hr2) hd)
              · exact (ih (d :: ds) hcs).2.1 f c hf
                  (Bool.eq_false_iff.mpr hcp)
      refine ⟨?_, ?_, ?_⟩
      · -- at the absolute start
        intro fuel hfuel
        obtain ⟨f, rfl⟩ : ∃ f, fuel = f + 1 :=
          ⟨fuel - 1, by simp only [List.length_cons] at hfuel; omega⟩
        have hf : cs.length ≤ f := by
          simp only [List.length_cons] at hfuel; omega
        by_cases hc : c = '#'
        · subst hc
          simp only [scanQAux]
          rw [if_pos (by exact ⟨trivial, trivial⟩)]
          cases htag : tagAt cs with
          | some t =>
            dsimp only
            conv_rhs => rw [show specTags none ('#' :: cs) =
              (if anchorWs none ∧ '#' = '#' then
                match tagAt cs with
                | some u => [lowerStr u]
                | none => []
              else []) ++ specTags (some '#') cs from rfl]
            rw [if_pos ⟨by trivial, rfl⟩, htag]
            dsimp only
            rw [List.cons_append, List.nil_append]
            congr 1
            obtain ⟨h2, h24, hchars, htake⟩ := tagAt_bounds cs t htag
            have hsplit : t ++ cs.drop t.length = cs := by
              conv_rhs => rw [← List.take_append_drop t.length cs]
              rw [htake]
            obtain ⟨q, hq, heq⟩ := specTags_append_nohash t '#' (cs.drop t.length)
              (by intro he; rw [he] at h2; simp at h2)
              (fun ch hch => isTagChar_ne_hash ch (hchars ch hch))
            conv_rhs => rw [← hsplit]
            rw [heq]
            have hdlen : (cs.drop t.length).length ≤ N := by
              rw [List.length_drop]
              omega
            exact (ih (cs.drop t.length) hdlen).2.1 f q
              (by rw [List.length_drop]; omega)
              (isTagChar_not_space q (hchars q hq))
          | none =>
            dsimp only
            conv_rhs => rw [show specTags none ('#' :: cs) =
              (if anchorWs none ∧ '#' = '#' then
                match tagAt cs with
                | some u => [lowerStr u]
                | none => []
              else []) ++ specTags (some '#') cs from rfl]
            rw [if_pos ⟨by trivial, rfl⟩, htag]
            dsimp only
            rw [List.nil_append]
            exact (ih cs hcs).2.1 f '#' hf hash_not_space
        · rw [scanQAux_false_eq isJsSpace f c cs hc]
          rw [hcore f hf]
          conv_rhs => rw [show specTags none (c :: cs) =
            (if anchorWs none ∧ c = '#' then
              match tagAt cs with
              | some u => [lowerStr u]
              | none => []
            else []) ++ specTags (some c) cs from rfl]
          rw [if_neg (fun h => hc h.2), List.nil_append]
      · -- after a non-whitespace previous character
        intro fuel p hfuel hp
        obtain ⟨f, rfl⟩ : ∃ f, fuel = f + 1 :=
          ⟨fuel - 1, by simp only [List.length_cons] at hfuel; omega⟩
        have hf : cs.length ≤ f := by
          simp only [List.length_cons] at hfuel; omega
        rw [hcore f hf]
        conv_rhs => rw [show specTags (some p) (c :: cs) =
          (if anchorWs (some p) ∧ c = '#' then
            match tagAt cs with
            | some u => [lowerStr u]
            | none => []
          else []) ++ specTags (some c) cs from rfl]
        rw [if_neg (fun h => by
          have h1 : anchorWs (some p) = true := h.1
          rw [show anchorWs (some p) = isJsSpace p from rfl, hp] at h1
          cases h1), List.nil_append]
      · -- after a whitespace previous character, no tag at a leading '#'
        intro fuel p hfuel hp hproviso
        obtain ⟨f, rfl⟩ : ∃ f, fuel = f + 1 :=
          ⟨fuel - 1, by simp only [List.length_cons] at hfuel; omega⟩
        have hf : cs.length ≤ f := by
          simp only [List.length_cons] at hfuel; omega
        rw [hcore f hf]
        conv_rhs => rw [show specTags (some p) (c :: cs) =
          (if anchorWs (some p) ∧ c = '#' then
            match tagAt cs with
            | some u => [lowerStr u]
            | none => []
          else []) ++ specTags (some c) cs from rfl]
        by_cases hc : c = '#'
        · subst hc
          have htag : tagAt cs = none := hproviso cs rfl
          rw [if_pos ⟨by simpa [anchorWs] using hp, rfl⟩, htag]
          dsimp only
          rw [List.nil_append]
        · rw [if_neg (fun h => hc h.2), List.nil_append]

/-! ### C4: the token anchor of `parseQuery` -/

/-- C4, counterexample: '(' belongs to the Tag Extractor's boundary class
and `extractTags` does collect the tag of "(#work)"; but `parseQuery`
collects nothing there and leaves the text intact — a token preceded by
punctuation is not collected, refuting "collected exactly when the
character preceding the '#' is start-of-text or whitespace/punctuation". -/
theorem parseQuery_punct_counterexample :
    isExtBoundary '(' = true ∧
    extractTags [strToL "(#work)"] = [strToL "work"] ∧
    (parseQuery (strToL "(#work)")).2 = [] ∧
    (parseQuery (strToL "(#work)")).1 = strToL "(#work)" := by
  exact ⟨by decide, by decide, by decide, by decide⟩

/-- C4, amended: `parseQuery` recognizes `#tag` tokens by the same token
grammar as the Tag Extractor (`tagAt`: '#' followed by 2–24 ASCII letters,
digits, '_' or '-', bounded by `\b`), collecting them case-folded, in
order of first appearance with duplicates allowed, exactly when the
character immediately preceding the '#' is start-of-(trimmed)-text or
whitespace — not punctuation.  This is the position-by-position
characterisation `specTags`; in particular `parseQuery("meeting #work")`
yields text "meeting" and tags ["work"]. -/
theorem parseQuery_ws_anchor (q : Str) :
    (parseQuery q).2 = specTags none (trimStr q) ∧
    parseQuery (strToL "meeting #work") = (strToL "meeting", [strToL "work"]) ∧
    parseQuery (strToL "#Work #work") = ([], [strToL "work", strToL "work"]) := by
  refine ⟨?_, by decide, by decide⟩
  unfold parseQuery
  by_cases hq : trimStr q = []
  · rw [if_pos hq, hq]; rfl
  · rw [if_neg hq]
    dsimp only
    unfold scanQ
    exact (scan_spec_main (trimStr q).length (trimStr q) le_rfl).1 _ le_rfl

end MiniNotes
